import Mathlib

/-!
# Verification of the multiprocess metric reconciliation subsystem

Shallow embedding of `prometheus_client/multiprocess.py`:

* `MultiProcessCollector.collect` (lines 27-99): the per-metric reconciliation
  of samples read from all store files — gauge modes, histogram bucket
  reconstruction, counter/summary summation.  The Python `dict` used for
  `samples`/`buckets` is modelled by an insertion-ordered association list
  (`lookupD`/`setD` below), which matches Python-dict semantics: lookup by
  key, update in place, append new keys at the end.
* `compact` (lines 124-164): merging one source store into the archive store.
* `mark_process_dead` (lines 102-121): the per-file probe/skip/delete/compact
  dispatch, and the event ordering of the probe handle versus the mutation.

Sample values are 64-bit floats in the source; they are modelled by `ℚ`,
which is faithful to the aggregation structure (grouping, ordering,
summation, min/max) that the properties under scrutiny are about; IEEE
rounding and infinities are outside the model.  Store keys are JSON encodings
of the tuple `(metric_name, name, labelnames, labelvalues)`; the embedding
works directly with the decoded tuples.  The keyed float store
(`core._MmapedDict`) and the float formatting helpers live in `core.py`,
an external collaborator; the handful of its operations this subsystem uses
are modelled from the spec where marked below.
-/

namespace Prom

/-! ## Insertion-ordered dictionaries (Python `dict` / store contents) -/

/-- Lookup in an insertion-ordered association list (Python `d.get(k)`). -/
def lookupD {κ β : Type} [DecidableEq κ] : List (κ × β) → κ → Option β
  | [], _ => none
  | e :: rest, k => if e.1 = k then some e.2 else lookupD rest k

/-- Upsert in an insertion-ordered association list (Python `d[k] = v`):
replaces the value in place when the key is present, appends otherwise. -/
def setD {κ β : Type} [DecidableEq κ] : List (κ × β) → κ → β → List (κ × β)
  | [], k, v => [(k, v)]
  | e :: rest, k, v => if e.1 = k then (k, v) :: rest else e :: setD rest k v

/-! ## Collector data model (collect, lines 27-99)

A `Row` is one sample as appended by the reading loop (lines 36-50):
`metric.add_sample(name, labels, value)`, where gauge samples from live
(non-archived) files already carry the synthetic `("pid", pid)` label that
line 47 attaches.  The reconciliation loop (lines 53-98) runs per metric,
so the embedding reconciles one metric's row list at a time. -/

abbrev Label := String × String
abbrev Labels := List Label
/-- Key of the `samples` dict of the reconcile loop: `(name, labels)`. -/
abbrev SampleId := String × Labels

structure Row where
  name : String
  labels : Labels
  value : ℚ
deriving DecidableEq

abbrev SamplesDict := List (SampleId × ℚ)

/-- `tuple(l for l in labels if l[0] != 'pid')` (line 58). -/
def withoutPid (L : Labels) : Labels := L.filter (fun l => decide (l.1 ≠ "pid"))

/-- The gauge partition key `(name, without_pid)` of lines 58-68. -/
def rowKey (r : Row) : SampleId := (r.name, withoutPid r.labels)

/-- The full key `(name, labels)` used at lines 70, 82 and 86. -/
def fullKey (r : Row) : SampleId := (r.name, r.labels)

/-- One iteration of the gauge branch of the reconcile loop (lines 57-70).
The `samples.setdefault(key, value)` of the `min`/`max` branches inserts
`value` when the key is absent and then compares `value` with itself, which
leaves `value` stored; that is the `none` case below. -/
def gaugeStep (mode : String) (d : SamplesDict) (r : Row) : SamplesDict :=
  if mode = "min" then
    match lookupD d (rowKey r) with
    | none => setD d (rowKey r) r.value
    | some current => if r.value < current then setD d (rowKey r) r.value else d
  else if mode = "max" then
    match lookupD d (rowKey r) with
    | none => setD d (rowKey r) r.value
    | some current => if current < r.value then setD d (rowKey r) r.value else d
  else if mode = "livesum" then
    setD d (rowKey r) ((lookupD d (rowKey r)).getD 0 + r.value)
  else
    -- all/liveall (and any unrecognized or absent mode): line 70
    setD d (fullKey r) r.value

/-- Gauge reconciliation: the fold of `gaugeStep` over the metric's rows,
starting from the empty `samples` dict (line 54). -/
def gaugeReconcile (mode : String) (rows : List Row) : SamplesDict :=
  rows.foldl (gaugeStep mode) []

/-- Digits of a decimal literal folded into a natural number. -/
def parseDigits (cs : List Char) : ℕ := cs.foldl (fun a c => a * 10 + (c.toNat - 48)) 0

/-- Modelled from the spec: the float parsing applied to the `le` label value
(`float(l[1])`, line 73) belongs to the out-of-scope numeric collaborators;
the spec fixes only that bucket thresholds are compared and ordered
numerically.  This executable model parses optionally-signed decimal
literals into `ℚ`. -/
def parseGoFloat (s : String) : ℚ :=
  let cs := s.toList
  let neg := cs.take 1 = ['-']
  let cs2 := if neg then cs.drop 1 else cs
  let intPart := cs2.takeWhile Char.isDigit
  let rest := cs2.dropWhile Char.isDigit
  let frac := if rest.take 1 = ['.'] then (rest.drop 1).takeWhile Char.isDigit else []
  let v : ℚ := (parseDigits intPart : ℚ) + (parseDigits frac : ℚ) / ((10 : ℚ) ^ frac.length)
  if neg then -v else v

/-- Modelled from the spec: the numeric formatting collaborator
(`core._floatToGoString`, line 94) renders a threshold into its label value
by a canonical convention in which integral values carry no fractional
part.  Non-integral rationals are rendered in numerator/denominator form
here; only the integral case is exercised by this development. -/
def goString (q : ℚ) : String :=
  if q.den = 1 then toString q.num else toString q.num ++ "/" ++ toString q.den

/-- `tuple(float(l[1]) for l in labels if l[0] == 'le')` (line 73). -/
def leValues (L : Labels) : List ℚ :=
  (L.filter (fun l => decide (l.1 = "le"))).map (fun l => parseGoFloat l.2)

/-- `tuple(l for l in labels if l[0] != 'le')` (line 76). -/
def withoutLe (L : Labels) : Labels := L.filter (fun l => decide (l.1 ≠ "le"))

/-- The bucket slot a row contributes to: `none` when the row carries no
`le` label (the `_sum`/`_count` raw branch), otherwise the pair of the
remaining label set and the first parsed threshold (`bucket[0]`, line 78). -/
def bucketKeyOf (r : Row) : Option (Labels × ℚ) :=
  match leValues r.labels with
  | [] => none
  | t :: _ => some (withoutLe r.labels, t)

/-- State of the histogram branch: the `samples` dict and the nested
`buckets` dict of lines 54-55. -/
structure HistState where
  samples : SamplesDict
  buckets : List (Labels × List (ℚ × ℚ))

/-- Lines 77-79: `buckets.setdefault(without_le, {})`;
`buckets[without_le].setdefault(bucket[0], 0.0)`;
`buckets[without_le][bucket[0]] += value`. -/
def bucketsAdd (B : List (Labels × List (ℚ × ℚ))) (g : Labels) (t : ℚ) (v : ℚ) :
    List (Labels × List (ℚ × ℚ)) :=
  let inner := (lookupD B g).getD []
  setD B g (setD inner t ((lookupD inner t).getD 0 + v))

/-- One iteration of the histogram branch of the reconcile loop
(lines 72-82). -/
def histStep (st : HistState) (r : Row) : HistState :=
  match bucketKeyOf r with
  | none =>
    { st with
      samples := setD st.samples (fullKey r) ((lookupD st.samples (fullKey r)).getD 0 + r.value) }
  | some (g, t) => { st with buckets := bucketsAdd st.buckets g t r.value }

/-- The `buckets` dict after the reading fold, from empty state. -/
def histBuckets (rows : List Row) : List (Labels × List (ℚ × ℚ)) :=
  (rows.foldl histStep ⟨[], []⟩).buckets

/-- Key order used by `sorted(values.items())` (line 92): the thresholds are
dict keys, hence pairwise distinct, so Python's lexicographic tuple sort
coincides with sorting by threshold. -/
def keyLE (a b : ℚ × ℚ) : Prop := a.1 ≤ b.1

instance : DecidableRel keyLE := fun a b => inferInstanceAs (Decidable (a.1 ≤ b.1))

instance : IsTotal (ℚ × ℚ) keyLE := ⟨fun a b => le_total a.1 b.1⟩

instance : IsTrans (ℚ × ℚ) keyLE := ⟨fun _ _ _ h1 h2 => le_trans h1 h2⟩

/-- `sorted(values.items())` (line 92). -/
def sortByKey (l : List (ℚ × ℚ)) : List (ℚ × ℚ) := List.insertionSort keyLE l

/-- The bucket-accumulation loop body (lines 91-94): walking the sorted
thresholds with the running total `acc`, emitting one
`(name_bucket, labels + le)` entry per threshold, and returning the final
`acc` for the `_count` entry.  The entries are returned in emission order;
`histAccumulate` below writes them into the `samples` dict via `setD`,
exactly as lines 94-95 do. -/
def accumEntries (mName : String) (g : Labels) (acc : ℚ) :
    List (ℚ × ℚ) → List (SampleId × ℚ) × ℚ
  | [] => ([], acc)
  | (t, v) :: rest =>
    let out := accumEntries mName g (acc + v) rest
    (((mName ++ "_bucket", g ++ [("le", goString t)]), acc + v) :: out.1, out.2)

/-- Lines 90-95 for one group: the sorted cumulative bucket entries followed
by the `(name_count, labels)` entry holding the final accumulator. -/
def accumGroup (mName : String) (g : Labels) (values : List (ℚ × ℚ)) :
    List (SampleId × ℚ) :=
  let out := accumEntries mName g 0 (sortByKey values)
  out.1 ++ [((mName ++ "_count", g), out.2)]

/-- Lines 89-95: fold every group's emitted entries into the `samples`
dict. -/
def histAccumulate (mName : String) (samples : SamplesDict)
    (buckets : List (Labels × List (ℚ × ℚ))) : SamplesDict :=
  buckets.foldl
    (fun s gv => (accumGroup mName gv.1 gv.2).foldl (fun s2 e => setD s2 e.1 e.2) s) samples

/-- Histogram reconciliation for one metric (lines 54-55, 72-82, 88-95). -/
def histReconcile (mName : String) (rows : List Row) : SamplesDict :=
  let st := rows.foldl histStep ⟨[], []⟩
  histAccumulate mName st.samples st.buckets

/-- One iteration of the counter/summary branch (lines 84-86):
`samples[(name, labels)] += value` on a `defaultdict(float)`. -/
def counterStep (d : SamplesDict) (r : Row) : SamplesDict :=
  setD d (fullKey r) ((lookupD d (fullKey r)).getD 0 + r.value)

/-- Counter/summary reconciliation: sum by identical `(name, labels)`. -/
def counterReconcile (rows : List Row) : SamplesDict :=
  rows.foldl counterStep []

/-- The per-metric dispatch of the reconcile loop (lines 56-86): the metric
type is constant over one metric's rows, so the per-row branch on
`metric.type` is equivalent to this per-metric dispatch. -/
def reconcileMetric (typ mode mName : String) (rows : List Row) : SamplesDict :=
  if typ = "gauge" then gaugeReconcile mode rows
  else if typ = "histogram" then histReconcile mName rows
  else counterReconcile rows

/-- Cumulative value at threshold `t`: the sum of the group's summed
increments over all thresholds at or below `t`. -/
def cumulAtL (values : List (ℚ × ℚ)) (t : ℚ) : ℚ :=
  ((values.filter (fun tv => decide (tv.1 ≤ t))).map Prod.snd).sum

/-- Lookup in the nested `buckets` dict. -/
def lookup2 (B : List (Labels × List (ℚ × ℚ))) (g : Labels) (t : ℚ) : Option ℚ :=
  (lookupD B g).bind (fun inner => lookupD inner t)

/-! ## Compactor: `compact` (multiprocess.py lines 124-164)

Store keys are the decoded `(metric_name, name, labelnames, labelvalues)`
tuples; `json.loads`/`json.dumps` of lines 155-156 become structural
access. -/

structure SKey where
  metricName : String
  name : String
  labelnames : List String
  labelvalues : List String
deriving DecidableEq

abbrev Store := List (SKey × ℚ)

/-- Modelled from the spec: the store collaborator's
`readValue(key, initializeIfAbsent)` with initialization on
(`dst.read_value(key)`, lines 149 and 160) — returns the stored value, or
initializes the absent key to the default 0.0 and returns it. -/
def readValueInit (d : Store) (k : SKey) : Store × ℚ :=
  match lookupD d k with
  | some v => (d, v)
  | none => (setD d k 0, 0)

/-- Modelled from the spec: `readValue` with initialization suppressed
(`dst.read_value(key, init=False)`, lines 145 and 150) — the unset sentinel
(`None`) when the key is absent. -/
def readValueNoInit (d : Store) (k : SKey) : Option ℚ := lookupD d k

/-- Lines 155-156: decode the key and re-encode it with the dying process's
pid appended as an extra label. -/
def rekey (k : SKey) (pid : String) : SKey :=
  { k with labelnames := k.labelnames ++ ["pid"], labelvalues := k.labelvalues ++ [pid] }

/-- The merge of one `(key, value)` pair of the source into the destination
store (lines 142-160).  The `mm == 'max'` guard of line 149 evaluates
`dst.read_value(key)` — with initialization — before the inner unset-check of
lines 150-152 runs; the order of effects is kept. -/
def compactStep (typ mm pid : String) (dst : Store) (kv : SKey × ℚ) : Store :=
  if typ = "gauge" then
    if mm = "min" then
      -- lines 144-147
      match readValueNoInit dst kv.1 with
      | none => setD dst kv.1 kv.2
      | some vnow => if kv.2 < vnow then setD dst kv.1 kv.2 else dst
    else if mm = "max" then
      -- lines 149-152
      let p := readValueInit dst kv.1
      if p.2 < kv.2 then
        match readValueNoInit p.1 kv.1 with
        | none => setD p.1 kv.1 kv.2
        | some vnow => if vnow < kv.2 then setD p.1 kv.1 kv.2 else p.1
      else p.1
    else if mm = "all" then
      -- lines 154-157
      setD dst (rekey kv.1 pid) kv.2
    else
      -- gauge with any other mode (livesum, liveall, ...): no branch applies
      dst
  else
    -- line 160: dst.write_value(key, dst.read_value(key) + value)
    let p := readValueInit dst kv.1
    setD p.1 kv.1 (p.2 + kv.2)

/-- The whole merge loop of `compact` (lines 142-160) over the source
store's `(key, value)` pairs. -/
def compactMerge (typ mm pid : String) (src : List (SKey × ℚ)) (dst : Store) : Store :=
  src.foldl (compactStep typ mm pid) dst

/-- Events of one `compact` call, in program order (lines 128-164). -/
inductive CEv : Type
  | lockExclusive : CEv
  | mergeKey : SKey → CEv
  | unlinkSrc : CEv
  | closeDst : CEv
  | closeSrc : CEv
deriving DecidableEq

/-- Event trace of `compact` (lines 128-164): take the exclusive lock, merge
every source pair, unlink the source (line 162), close both stores. -/
def compactTrace (src : List (SKey × ℚ)) : List CEv :=
  [CEv.lockExclusive] ++ src.map (fun kv => CEv.mergeKey kv.1)
    ++ [CEv.unlinkSrc, CEv.closeDst, CEv.closeSrc]

/-- Scans a `compact` trace: true iff the source unlink occurs and no merge
step happens after it (the source is deleted exactly once the whole merge
has run). -/
def unlinkAfterMerges (seenUnlink : Bool) : List CEv → Bool
  | [] => seenUnlink
  | CEv.unlinkSrc :: rest => unlinkAfterMerges true rest
  | CEv.mergeKey _ :: rest => !seenUnlink && unlinkAfterMerges seenUnlink rest
  | _ :: rest => unlinkAfterMerges seenUnlink rest

/-! ## DeathHandler: `mark_process_dead` (multiprocess.py lines 102-121)

The OS-level probe (`fcntl.flock(fd, LOCK_EX | LOCK_NB)`) either succeeds or
raises `IOError` carrying an errno; it is modelled by an `Option ℕ`
(`none` = lock acquired, `some e` = raised with errno `e`). -/

/-- Linux `errno.EWOULDBLOCK` (= `EAGAIN`). -/
def EWOULDBLOCK : ℕ := 11

/-- Python's `str.startswith` (`fn.startswith('gauge_live')`, line 118):
prefix test on the character sequences. -/
def strStartsWith (s p : String) : Bool := p.toList.isPrefixOf s.toList

/-- What `mark_process_dead` does with one matched file. -/
inductive FileAction : Type
  | skip : FileAction
  | raiseError : ℕ → FileAction
  | removeFile : FileAction
  | compactFile : FileAction
deriving DecidableEq

/-- Per-file dispatch of `mark_process_dead` (lines 107-121): probe the file
with a non-blocking exclusive flock; `EWOULDBLOCK` means the file is still
held, so it is skipped (`continue`); any other errno propagates (`raise`);
on success, files named `gauge_live*` are removed and every other file is
handed to `compact`. -/
def markDecision (fname : String) (flockResult : Option ℕ) : FileAction :=
  match flockResult with
  | some e => if e ≠ EWOULDBLOCK then FileAction.raiseError e else FileAction.skip
  | none =>
    if strStartsWith fname "gauge_live" then FileAction.removeFile else FileAction.compactFile

/-- Events in the per-file processing of `mark_process_dead`. -/
inductive Ev : Type
  | openFile : Ev
  | probeAcquired : Ev
  | closeFile : Ev
  | removeFile : Ev
  | compactCall : Ev
deriving DecidableEq

/-- Event trace of processing one matched file in `mark_process_dead`
(lines 107-121), paired with the errno it propagates (if any).  The
`with open(f, 'rb') as lfh` block closes the handle on every exit path —
normal fall-through, `continue`, and `raise` — and closing the handle drops
the advisory lock taken by the probe.  `os.remove` / `compact` run after the
`with` block. -/
def processFileTrace (fname : String) (flockResult : Option ℕ) : List Ev × Option ℕ :=
  match flockResult with
  | some e =>
    if e ≠ EWOULDBLOCK then ([Ev.openFile, Ev.closeFile], some e)
    else ([Ev.openFile, Ev.closeFile], none)
  | none =>
    if strStartsWith fname "gauge_live" then
      ([Ev.openFile, Ev.probeAcquired, Ev.closeFile, Ev.removeFile], none)
    else
      ([Ev.openFile, Ev.probeAcquired, Ev.closeFile, Ev.compactCall], none)

/-- Checks, scanning a trace while tracking whether the probe handle is open
(`openH`) and whether the probe's advisory lock is held (`locked`), that every
file mutation (`removeFile` or `compactCall`) happens with the handle closed
and no lock held. -/
def mutationsUnlocked (openH : Bool) (locked : Bool) : List Ev → Bool
  | [] => true
  | Ev.openFile :: rest => mutationsUnlocked true locked rest
  | Ev.probeAcquired :: rest => mutationsUnlocked openH true rest
  | Ev.closeFile :: rest => mutationsUnlocked false false rest
  | Ev.removeFile :: rest => !openH && !locked && mutationsUnlocked openH locked rest
  | Ev.compactCall :: rest => !openH && !locked && mutationsUnlocked openH locked rest

/-! ## Aggregation combinators used by the statements -/

/-- The effect of one `min`-mode row on its slot. -/
def updMin (o : Option ℚ) (v : ℚ) : Option ℚ :=
  match o with
  | none => some v
  | some c => some (min c v)

/-- The effect of one `max`-mode row on its slot. -/
def updMax (o : Option ℚ) (v : ℚ) : Option ℚ :=
  match o with
  | none => some v
  | some c => some (max c v)

/-- The effect of one summed row on its slot (`defaultdict(float)` `+=`). -/
def updSum (o : Option ℚ) (v : ℚ) : Option ℚ := some (o.getD 0 + v)

/-! # Theorems -/

/-! ## Dictionary lemmas -/

theorem lookupD_setD_self {κ β : Type} [DecidableEq κ] (d : List (κ × β)) (k : κ) (v : β) :
    lookupD (setD d k v) k = some v := by
  induction d with
  | nil => simp [setD, lookupD]
  | cons e rest ih =>
    by_cases h : e.1 = k
    · simp [setD, h, lookupD]
    · simp [setD, h, lookupD, ih]

theorem lookupD_setD_ne {κ β : Type} [DecidableEq κ] (d : List (κ × β)) (k q : κ) (v : β)
    (h : q ≠ k) : lookupD (setD d k v) q = lookupD d q := by
  induction d with
  | nil =>
    have hk : ¬ k = q := fun hh => h hh.symm
    simp [setD, lookupD, hk]
  | cons e rest ih =>
    by_cases he : e.1 = k
    · have hk : ¬ k = q := fun hh => h hh.symm
      simp [setD, he, lookupD, hk]
    · simp [setD, he, lookupD, ih]

theorem mem_setD {κ β : Type} [DecidableEq κ] (d : List (κ × β)) (k : κ) (v : β)
    (x : κ × β) (hx : x ∈ setD d k v) : x = (k, v) ∨ x ∈ d := by
  induction d with
  | nil => simpa [setD] using hx
  | cons e rest ih =>
    by_cases he : e.1 = k
    · simp only [setD, if_pos he, List.mem_cons] at hx
      rcases hx with h | h
      · exact Or.inl h
      · exact Or.inr (List.mem_cons_of_mem _ h)
    · simp only [setD, if_neg he, List.mem_cons] at hx
      rcases hx with h | h
      · exact Or.inr (h ▸ List.mem_cons_self e rest)
      · rcases ih h with h2 | h2
        · exact Or.inl h2
        · exact Or.inr (List.mem_cons_of_mem _ h2)

theorem lookupD_mem {κ β : Type} [DecidableEq κ] (d : List (κ × β)) (k : κ) (v : β)
    (h : lookupD d k = some v) : (k, v) ∈ d := by
  induction d with
  | nil => simp [lookupD] at h
  | cons e rest ih =>
    by_cases he : e.1 = k
    · simp only [lookupD, if_pos he, Option.some.injEq] at h
      have hev : e = (k, v) := by cases e; simp_all
      rw [← hev]
      exact List.mem_cons_self e rest
    · simp only [lookupD, if_neg he] at h
      exact List.mem_cons_of_mem _ (ih h)

theorem lookupD_eq_none {κ β : Type} [DecidableEq κ] (d : List (κ × β)) (k : κ) :
    lookupD d k = none ↔ k ∉ d.map Prod.fst := by
  induction d with
  | nil => simp [lookupD]
  | cons e rest ih =>
    by_cases he : e.1 = k
    · simp [lookupD, he]
    · have hk : ¬ k = e.1 := fun hh => he hh.symm
      simp only [lookupD, if_neg he]
      rw [ih]
      simp only [List.map_cons, List.mem_cons, not_or]
      exact ⟨fun h1 => ⟨hk, h1⟩, And.right⟩

theorem setD_of_not_mem {κ β : Type} [DecidableEq κ] (d : List (κ × β)) (k : κ) (v : β)
    (h : k ∉ d.map Prod.fst) : setD d k v = d ++ [(k, v)] := by
  induction d with
  | nil => simp [setD]
  | cons e rest ih =>
    simp only [List.map_cons, List.mem_cons] at h
    push_neg at h
    have he : ¬ e.1 = k := fun hh => h.1 hh.symm
    simp [setD, he, ih h.2]

theorem keys_setD_of_mem {κ β : Type} [DecidableEq κ] (d : List (κ × β)) (k : κ) (v : β)
    (h : k ∈ d.map Prod.fst) : (setD d k v).map Prod.fst = d.map Prod.fst := by
  induction d with
  | nil => simp at h
  | cons e rest ih =>
    by_cases he : e.1 = k
    · simp [setD, he]
    · simp only [List.map_cons, List.mem_cons] at h
      rcases h with h | h
      · exact absurd h.symm he
      · simp [setD, he, ih h]

theorem nodup_keys_setD {κ β : Type} [DecidableEq κ] (d : List (κ × β)) (k : κ) (v : β)
    (h : (d.map Prod.fst).Nodup) : ((setD d k v).map Prod.fst).Nodup := by
  by_cases hk : k ∈ d.map Prod.fst
  · rw [keys_setD_of_mem d k v hk]; exact h
  · rw [setD_of_not_mem d k v hk]
    simp only [List.map_append, List.map_cons, List.map_nil]
    rw [List.nodup_append]
    refine ⟨h, List.nodup_singleton k, ?_⟩
    intro a ha hb
    rw [List.mem_singleton] at hb
    subst hb
    exact hk ha

/-! ## Fold-with-slot-update lemmas -/

/-- Lookup after folding a per-row step that touches exactly the slot named
by `keyOf`: the result is the fold of the per-slot effect `f` over the rows
hitting the queried slot. -/
theorem view_foldl_update {α σ κ : Type} [DecidableEq κ]
    (step : σ → α → σ) (view : σ → κ → Option ℚ) (keyOf : α → Option κ)
    (f : Option ℚ → α → Option ℚ)
    (hhit : ∀ s a k, keyOf a = some k → view (step s a) k = f (view s k) a)
    (hmiss : ∀ s a k, keyOf a ≠ some k → view (step s a) k = view s k)
    (l : List α) (s : σ) (k : κ) :
    view (l.foldl step s) k
      = (l.filter (fun a => decide (keyOf a = some k))).foldl f (view s k) := by
  induction l generalizing s with
  | nil => rfl
  | cons a rest ih =>
    simp only [List.foldl_cons, List.filter_cons]
    by_cases h : keyOf a = some k
    · rw [if_pos (by simp [h]), List.foldl_cons, ← hhit s a k h]
      exact ih (step s a)
    · rw [if_neg (by simp [h]), ← hmiss s a k h]
      exact ih (step s a)

theorem foldl_updMin_some {β : Type} (val : β → ℚ) (l : List β) (c : ℚ) :
    l.foldl (fun o r => updMin o (val r)) (some c)
      = some (l.foldl (fun c2 r => min c2 (val r)) c) := by
  induction l generalizing c with
  | nil => rfl
  | cons a rest ih =>
    rw [List.foldl_cons]
    show List.foldl (fun o r => updMin o (val r)) (some (min c (val a))) rest = _
    rw [ih, List.foldl_cons]

theorem foldl_updMin_eq_min {β : Type} (val : β → ℚ) (l : List β) :
    l.foldl (fun o r => updMin o (val r)) none = (l.map val).min? := by
  cases l with
  | nil => rfl
  | cons a rest =>
    rw [List.foldl_cons]
    show List.foldl (fun o r => updMin o (val r)) (some (val a)) rest = _
    rw [foldl_updMin_some, List.map_cons, List.min?_cons', List.foldl_map]

theorem foldl_updMax_some {β : Type} (val : β → ℚ) (l : List β) (c : ℚ) :
    l.foldl (fun o r => updMax o (val r)) (some c)
      = some (l.foldl (fun c2 r => max c2 (val r)) c) := by
  induction l generalizing c with
  | nil => rfl
  | cons a rest ih =>
    rw [List.foldl_cons]
    show List.foldl (fun o r => updMax o (val r)) (some (max c (val a))) rest = _
    rw [ih, List.foldl_cons]

theorem foldl_updMax_eq_max {β : Type} (val : β → ℚ) (l : List β) :
    l.foldl (fun o r => updMax o (val r)) none = (l.map val).max? := by
  cases l with
  | nil => rfl
  | cons a rest =>
    rw [List.foldl_cons]
    show List.foldl (fun o r => updMax o (val r)) (some (val a)) rest = _
    rw [foldl_updMax_some, List.map_cons, List.max?_cons', List.foldl_map]

theorem foldl_updSum_some {β : Type} (val : β → ℚ) (l : List β) (c : ℚ) :
    l.foldl (fun o r => updSum o (val r)) (some c) = some (c + (l.map val).sum) := by
  induction l generalizing c with
  | nil => simp [updSum]
  | cons a rest ih =>
    rw [List.foldl_cons]
    show List.foldl (fun o r => updSum o (val r)) (some (c + val a)) rest = _
    rw [ih, List.map_cons, List.sum_cons, add_assoc]

theorem foldl_updSum_eq_sum {β : Type} (val : β → ℚ) (l : List β) :
    l.foldl (fun o r => updSum o (val r)) none
      = if l.isEmpty then none else some ((l.map val).sum) := by
  cases l with
  | nil => rfl
  | cons a rest =>
    rw [List.foldl_cons]
    show List.foldl (fun o r => updSum o (val r)) (some (0 + val a)) rest = _
    rw [foldl_updSum_some]
    simp

/-! ## Per-step slot lemmas for the gauge and counter branches -/

theorem gaugeStep_min_hit (d : SamplesDict) (r : Row) (k : SampleId) (h : rowKey r = k) :
    lookupD (gaugeStep "min" d r) k = updMin (lookupD d k) r.value := by
  subst h
  cases hcur : lookupD d (rowKey r) with
  | none => simp [gaugeStep, hcur, lookupD_setD_self, updMin]
  | some c =>
    by_cases hv : r.value < c
    · simp [gaugeStep, hcur, hv, lookupD_setD_self, updMin, min_eq_right hv.le]
    · simp [gaugeStep, hcur, hv, updMin, min_eq_left (le_of_not_lt hv)]

theorem gaugeStep_min_miss (d : SamplesDict) (r : Row) (k : SampleId) (h : rowKey r ≠ k) :
    lookupD (gaugeStep "min" d r) k = lookupD d k := by
  have hne : k ≠ rowKey r := fun hh => h hh.symm
  cases hcur : lookupD d (rowKey r) with
  | none => simp [gaugeStep, hcur, lookupD_setD_ne d (rowKey r) k r.value hne]
  | some c =>
    by_cases hv : r.value < c
    · simp [gaugeStep, hcur, hv, lookupD_setD_ne d (rowKey r) k r.value hne]
    · simp [gaugeStep, hcur, hv]

theorem gaugeStep_max_hit (d : SamplesDict) (r : Row) (k : SampleId) (h : rowKey r = k) :
    lookupD (gaugeStep "max" d r) k = updMax (lookupD d k) r.value := by
  subst h
  cases hcur : lookupD d (rowKey r) with
  | none => simp [gaugeStep, hcur, lookupD_setD_self, updMax]
  | some c =>
    by_cases hv : c < r.value
    · simp [gaugeStep, hcur, hv, lookupD_setD_self, updMax, max_eq_right hv.le]
    · simp [gaugeStep, hcur, hv, updMax, max_eq_left (le_of_not_lt hv)]

theorem gaugeStep_max_miss (d : SamplesDict) (r : Row) (k : SampleId) (h : rowKey r ≠ k) :
    lookupD (gaugeStep "max" d r) k = lookupD d k := by
  have hne : k ≠ rowKey r := fun hh => h hh.symm
  cases hcur : lookupD d (rowKey r) with
  | none => simp [gaugeStep, hcur, lookupD_setD_ne d (rowKey r) k r.value hne]
  | some c =>
    by_cases hv : c < r.value
    · simp [gaugeStep, hcur, hv, lookupD_setD_ne d (rowKey r) k r.value hne]
    · simp [gaugeStep, hcur, hv]

theorem gaugeStep_livesum_hit (d : SamplesDict) (r : Row) (k : SampleId) (h : rowKey r = k) :
    lookupD (gaugeStep "livesum" d r) k = updSum (lookupD d k) r.value := by
  subst h
  simp [gaugeStep, lookupD_setD_self, updSum]

theorem gaugeStep_livesum_miss (d : SamplesDict) (r : Row) (k : SampleId) (h : rowKey r ≠ k) :
    lookupD (gaugeStep "livesum" d r) k = lookupD d k := by
  have hne : k ≠ rowKey r := fun hh => h hh.symm
  simp [gaugeStep, lookupD_setD_ne d (rowKey r) k _ hne]

theorem counterStep_hit (d : SamplesDict) (r : Row) (k : SampleId) (h : fullKey r = k) :
    lookupD (counterStep d r) k = updSum (lookupD d k) r.value := by
  subst h
  simp [counterStep, lookupD_setD_self, updSum]

theorem counterStep_miss (d : SamplesDict) (r : Row) (k : SampleId) (h : fullKey r ≠ k) :
    lookupD (counterStep d r) k = lookupD d k := by
  have hne : k ≠ fullKey r := fun hh => h hh.symm
  simp [counterStep, lookupD_setD_ne d (fullKey r) k _ hne]

/-! ## Claim theorems: gauge reconciliation -/

/-- **C6**: for every gauge metric reconciled by `collect()`, samples are
partitioned by `(sample_name, labels excluding the pid label)`; under mode
`min` (resp. `max`) the emitted value for each partition is the minimum
(resp. maximum) over all contributing rows, and under mode `livesum` it is
the sum over all contributing rows (absent partitions stay absent). -/
theorem gauge_min_max_livesum_partition (rows : List Row) (n : String) (L : Labels) :
    (lookupD (gaugeReconcile "min" rows) (n, L)
        = ((rows.filter (fun r => decide (rowKey r = (n, L)))).map Row.value).min?)
  ∧ (lookupD (gaugeReconcile "max" rows) (n, L)
        = ((rows.filter (fun r => decide (rowKey r = (n, L)))).map Row.value).max?)
  ∧ (lookupD (gaugeReconcile "livesum" rows) (n, L)
        = if (rows.filter (fun r => decide (rowKey r = (n, L)))).isEmpty then none
          else some (((rows.filter (fun r => decide (rowKey r = (n, L)))).map Row.value).sum)) := by
  have hfil : (fun (a : Row) => decide (some (rowKey a) = some ((n, L) : SampleId)))
      = (fun (a : Row) => decide (rowKey a = (n, L))) := by
    funext a; simp
  refine ⟨?_, ?_, ?_⟩
  · have h := view_foldl_update (gaugeStep "min") (fun d k => lookupD d k)
      (fun r => some (rowKey r)) (fun o r => updMin o r.value)
      (fun s a k hk => gaugeStep_min_hit s a k (Option.some.inj hk))
      (fun s a k hk => gaugeStep_min_miss s a k (fun hr => hk (congrArg some hr)))
      rows [] (n, L)
    calc lookupD (gaugeReconcile "min" rows) (n, L)
        = (rows.filter (fun a => decide (some (rowKey a) = some ((n, L) : SampleId)))).foldl
            (fun o r => updMin o r.value) none := h
      _ = _ := by rw [hfil, foldl_updMin_eq_min]
  · have h := view_foldl_update (gaugeStep "max") (fun d k => lookupD d k)
      (fun r => some (rowKey r)) (fun o r => updMax o r.value)
      (fun s a k hk => gaugeStep_max_hit s a k (Option.some.inj hk))
      (fun s a k hk => gaugeStep_max_miss s a k (fun hr => hk (congrArg some hr)))
      rows [] (n, L)
    calc lookupD (gaugeReconcile "max" rows) (n, L)
        = (rows.filter (fun a => decide (some (rowKey a) = some ((n, L) : SampleId)))).foldl
            (fun o r => updMax o r.value) none := h
      _ = _ := by rw [hfil, foldl_updMax_eq_max]
  · have h := view_foldl_update (gaugeStep "livesum") (fun d k => lookupD d k)
      (fun r => some (rowKey r)) (fun o r => updSum o r.value)
      (fun s a k hk => gaugeStep_livesum_hit s a k (Option.some.inj hk))
      (fun s a k hk => gaugeStep_livesum_miss s a k (fun hr => hk (congrArg some hr)))
      rows [] (n, L)
    calc lookupD (gaugeReconcile "livesum" rows) (n, L)
        = (rows.filter (fun a => decide (some (rowKey a) = some ((n, L) : SampleId)))).foldl
            (fun o r => updSum o r.value) none := h
      _ = _ := by rw [hfil, foldl_updSum_eq_sum]

/-- **C8**: for counter (and summary) samples with an identical
`(sample_name, labels)` key present in stores with values `v1..vn`,
`collect()` reports `sum(v1..vn)`, and the reported aggregate is identical
for every order in which the store files are scanned (the concatenated row
list is permuted). -/
theorem counter_summary_sum_order_invariant (rows rowsP : List Row) (n : String) (L : Labels)
    (hperm : rows.Perm rowsP) :
    (lookupD (counterReconcile rows) (n, L)
        = if (rows.filter (fun r => decide (fullKey r = (n, L)))).isEmpty then none
          else some (((rows.filter (fun r => decide (fullKey r = (n, L)))).map Row.value).sum))
  ∧ lookupD (counterReconcile rowsP) (n, L) = lookupD (counterReconcile rows) (n, L) := by
  have key : ∀ rs : List Row, lookupD (counterReconcile rs) (n, L)
      = if (rs.filter (fun r => decide (fullKey r = (n, L)))).isEmpty then none
        else some (((rs.filter (fun r => decide (fullKey r = (n, L)))).map Row.value).sum) := by
    intro rs
    have hfil : (fun (a : Row) => decide (some (fullKey a) = some ((n, L) : SampleId)))
        = (fun (a : Row) => decide (fullKey a = (n, L))) := by
      funext a; simp
    have h := view_foldl_update counterStep (fun d k => lookupD d k)
      (fun r => some (fullKey r)) (fun o r => updSum o r.value)
      (fun s a k hk => counterStep_hit s a k (Option.some.inj hk))
      (fun s a k hk => counterStep_miss s a k (fun hr => hk (congrArg some hr)))
      rs [] (n, L)
    calc lookupD (counterReconcile rs) (n, L)
        = (rs.filter (fun a => decide (some (fullKey a) = some ((n, L) : SampleId)))).foldl
            (fun o r => updSum o r.value) none := h
      _ = _ := by rw [hfil, foldl_updSum_eq_sum]
  refine ⟨key rows, ?_⟩
  rw [key rows, key rowsP]
  have hp : (rows.filter (fun r => decide (fullKey r = (n, L)))).Perm
      (rowsP.filter (fun r => decide (fullKey r = (n, L)))) := hperm.filter _
  by_cases he : (rows.filter (fun r => decide (fullKey r = (n, L)))) = []
  · have heP : (rowsP.filter (fun r => decide (fullKey r = (n, L)))) = [] :=
      ((he ▸ hp : ([] : List Row).Perm _).symm).eq_nil
    rw [he, heP]
  · have heP : (rowsP.filter (fun r => decide (fullKey r = (n, L)))) ≠ [] := by
      intro hh
      rw [hh] at hp
      exact he hp.eq_nil
    have hsum : ((rowsP.filter (fun r => decide (fullKey r = (n, L)))).map Row.value).sum
        = ((rows.filter (fun r => decide (fullKey r = (n, L)))).map Row.value).sum :=
      ((hp.map Row.value).sum_eq).symm
    simp only [List.isEmpty_iff]
    rw [if_neg he, if_neg heP, hsum]

/-- Witness for C8: two stores contribute 2 and 3 under one key; a third
store holds an unrelated key; scanning in reversed order reports the same
aggregate 5. -/
theorem counter_summary_sum_order_invariant_witness :
    lookupD (counterReconcile
        [⟨"c", [("a", "b")], 2⟩, ⟨"c", [("a", "b")], 3⟩, ⟨"c", [("x", "y")], 7⟩])
      ("c", [("a", "b")]) = some 5
  ∧ lookupD (counterReconcile
        [⟨"c", [("x", "y")], 7⟩, ⟨"c", [("a", "b")], 3⟩, ⟨"c", [("a", "b")], 2⟩])
      ("c", [("a", "b")])
    = lookupD (counterReconcile
        [⟨"c", [("a", "b")], 2⟩, ⟨"c", [("a", "b")], 3⟩, ⟨"c", [("x", "y")], 7⟩])
      ("c", [("a", "b")]) := by
  have h := counter_summary_sum_order_invariant
    [⟨"c", [("a", "b")], 2⟩, ⟨"c", [("a", "b")], 3⟩, ⟨"c", [("x", "y")], 7⟩]
    [⟨"c", [("x", "y")], 7⟩, ⟨"c", [("a", "b")], 3⟩, ⟨"c", [("a", "b")], 2⟩]
    "c" [("a", "b")]
    (List.reverse_perm
      ([⟨"c", [("a", "b")], 2⟩, ⟨"c", [("a", "b")], 3⟩, ⟨"c", [("x", "y")], 7⟩] : List Row)).symm
  refine ⟨h.1.trans ?_, h.2⟩
  simp [fullKey, List.filter_cons, Prod.ext_iff]
  try norm_num

/-- Helper for C7: with any mode other than `min`/`max`/`livesum`, the fold
of `gaugeStep` writes each row at its full key, appending a fresh row for
every input row whose full key is new. -/
theorem foldl_allmode_append (mode : String) (rows : List Row) (d : SamplesDict)
    (hmode : mode ≠ "min" ∧ mode ≠ "max" ∧ mode ≠ "livesum")
    (hkeys : (rows.map fullKey).Nodup)
    (hdisj : ∀ r ∈ rows, fullKey r ∉ d.map Prod.fst) :
    rows.foldl (gaugeStep mode) d = d ++ rows.map (fun r => (fullKey r, r.value)) := by
  induction rows generalizing d with
  | nil => simp
  | cons r rest ih =>
    rw [List.map_cons, List.nodup_cons] at hkeys
    rw [List.foldl_cons]
    have hstep : gaugeStep mode d r = d ++ [(fullKey r, r.value)] := by
      simp only [gaugeStep, if_neg hmode.1, if_neg hmode.2.1, if_neg hmode.2.2]
      exact setD_of_not_mem d (fullKey r) r.value (hdisj r (List.mem_cons_self r rest))
    rw [hstep]
    have hdisj2 : ∀ x ∈ rest, fullKey x ∉ (d ++ [(fullKey r, r.value)]).map Prod.fst := by
      intro x hx
      rw [List.map_append]
      simp only [List.mem_append, List.map_cons, List.map_nil, List.mem_singleton]
      rintro (hc | hc)
      · exact hdisj x (List.mem_cons_of_mem r hx) hc
      · exact hkeys.1 (hc ▸ List.mem_map_of_mem fullKey hx)
    rw [ih (d ++ [(fullKey r, r.value)]) hkeys.2 hdisj2]
    simp

/-- **C7**: for every gauge metric whose mode is `all` or `liveall` — and
also whenever the mode is any string other than `min`/`max`/`livesum`
(unrecognized, or the spec's fallback for an absent mode) — `collect()`
emits every input row as its own distinct sample under its full label set
including its pid label, merging nothing (rows of live per-process gauge
files carry distinct pid labels, hence distinct full keys). -/
theorem gauge_all_liveall_keeps_rows (mode : String) (rows : List Row)
    (hmode : mode ≠ "min" ∧ mode ≠ "max" ∧ mode ≠ "livesum")
    (hkeys : (rows.map fullKey).Nodup) :
    gaugeReconcile mode rows = rows.map (fun r => (fullKey r, r.value)) := by
  have h := foldl_allmode_append mode rows [] hmode hkeys (by intro r hr; simp)
  simpa using h

/-- Witness for C7: gauge mode `all` with per-pid values
`{100: 2.0, 101: 5.0}` yields two distinct samples carrying their own pid
label, never merged. -/
theorem gauge_all_liveall_keeps_rows_witness :
    gaugeReconcile "all" [⟨"g", [("pid", "100")], 2⟩, ⟨"g", [("pid", "101")], 5⟩]
      = [(("g", [("pid", "100")]), 2), (("g", [("pid", "101")]), 5)] := by
  have h := gauge_all_liveall_keeps_rows "all"
    ([⟨"g", [("pid", "100")], 2⟩, ⟨"g", [("pid", "101")], 5⟩] : List Row)
    ⟨by decide, by decide, by decide⟩ (by decide)
  exact h.trans (by simp [fullKey])

/-! ## Claim theorems: compactor -/

theorem compactMerge_nil (typ mm pid : String) (d : Store) :
    compactMerge typ mm pid [] d = d := rfl

theorem compactMerge_cons (typ mm pid : String) (hd : SKey × ℚ) (rest : List (SKey × ℚ))
    (d : Store) :
    compactMerge typ mm pid (hd :: rest) d
      = compactMerge typ mm pid rest (compactStep typ mm pid d hd) := rfl

theorem compactStep_nongauge_self (typ mm pid : String) (htyp : typ ≠ "gauge")
    (dst : Store) (kv : SKey × ℚ) :
    lookupD (compactStep typ mm pid dst kv) kv.1
      = some ((lookupD dst kv.1).getD 0 + kv.2) := by
  simp only [compactStep, if_neg htyp]
  cases hcur : lookupD dst kv.1 with
  | none => simp [readValueInit, hcur, lookupD_setD_self]
  | some c => simp [readValueInit, hcur, lookupD_setD_self]

theorem compactStep_nongauge_other (typ mm pid : String) (htyp : typ ≠ "gauge")
    (dst : Store) (kv : SKey × ℚ) (k : SKey) (hk : k ≠ kv.1) :
    lookupD (compactStep typ mm pid dst kv) k = lookupD dst k := by
  simp only [compactStep, if_neg htyp]
  cases hcur : lookupD dst kv.1 with
  | none =>
    simp [readValueInit, hcur, lookupD_setD_ne _ kv.1 k _ hk]
  | some c =>
    simp [readValueInit, hcur, lookupD_setD_ne _ kv.1 k _ hk]

theorem compactMerge_nongauge_untouched (typ mm pid : String) (htyp : typ ≠ "gauge")
    (src : List (SKey × ℚ)) (d : Store) (k : SKey) (hk : k ∉ src.map Prod.fst) :
    lookupD (compactMerge typ mm pid src d) k = lookupD d k := by
  induction src generalizing d with
  | nil => rfl
  | cons hd rest ih =>
    rw [List.map_cons, List.mem_cons, not_or] at hk
    rw [compactMerge_cons, ih (compactStep typ mm pid d hd) hk.2,
      compactStep_nongauge_other typ mm pid htyp d hd k hk.1]

theorem compactStep_min_self (pid : String) (dst : Store) (kv : SKey × ℚ) :
    lookupD (compactStep "gauge" "min" pid dst kv) kv.1
      = some ((lookupD dst kv.1).elim kv.2 (fun c => min c kv.2)) := by
  cases hcur : lookupD dst kv.1 with
  | none => simp [compactStep, readValueNoInit, hcur, lookupD_setD_self]
  | some c =>
    by_cases hv : kv.2 < c
    · simp [compactStep, readValueNoInit, hcur, hv, lookupD_setD_self, min_eq_right hv.le]
    · simp [compactStep, readValueNoInit, hcur, hv, min_eq_left (le_of_not_lt hv)]

theorem compactStep_min_other (pid : String) (dst : Store) (kv : SKey × ℚ) (k : SKey)
    (hk : k ≠ kv.1) :
    lookupD (compactStep "gauge" "min" pid dst kv) k = lookupD dst k := by
  cases hcur : lookupD dst kv.1 with
  | none => simp [compactStep, readValueNoInit, hcur, lookupD_setD_ne _ kv.1 k _ hk]
  | some c =>
    by_cases hv : kv.2 < c
    · simp [compactStep, readValueNoInit, hcur, hv, lookupD_setD_ne _ kv.1 k _ hk]
    · simp [compactStep, readValueNoInit, hcur, hv]

theorem compactMerge_min_untouched (pid : String) (src : List (SKey × ℚ)) (d : Store)
    (k : SKey) (hk : k ∉ src.map Prod.fst) :
    lookupD (compactMerge "gauge" "min" pid src d) k = lookupD d k := by
  induction src generalizing d with
  | nil => rfl
  | cons hd rest ih =>
    rw [List.map_cons, List.mem_cons, not_or] at hk
    rw [compactMerge_cons, ih (compactStep "gauge" "min" pid d hd) hk.2,
      compactStep_min_other pid d hd k hk.1]

theorem compactStep_gauge_livesum (pid : String) (dst : Store) (kv : SKey × ℚ) :
    compactStep "gauge" "livesum" pid dst kv = dst := by
  simp [compactStep]

theorem compactMerge_gauge_livesum (pid : String) (src : List (SKey × ℚ)) (dst : Store) :
    compactMerge "gauge" "livesum" pid src dst = dst := by
  induction src generalizing dst with
  | nil => rfl
  | cons hd rest ih =>
    rw [compactMerge_cons, compactStep_gauge_livesum]
    exact ih dst

theorem rekey_injective (k1 k2 : SKey) (pid : String) (h : rekey k1 pid = rekey k2 pid) :
    k1 = k2 := by
  cases k1; cases k2
  simp only [rekey, SKey.mk.injEq] at h ⊢
  obtain ⟨h1, h2, h3, h4⟩ := h
  refine ⟨h1, h2, ?_, ?_⟩
  · have h5 := congrArg List.dropLast h3
    simpa using h5
  · have h5 := congrArg List.dropLast h4
    simpa using h5

/-- **C2 (amended)**: for every `(key, value)` pair in a source StoreFile of
a non-gauge type (counter, histogram, summary), `compact()` writes
`destination[key] = (current destination value, defaulting to 0.0 when the
key is absent) + incoming value`.  Gauge/livesum pairs, however, match none
of the merge branches and are dropped: the destination is left unchanged. -/
theorem compact_sum_merge_non_gauge (typ mm pid : String) (src : List (SKey × ℚ))
    (dst : Store) (htyp : typ ≠ "gauge") (hnd : (src.map Prod.fst).Nodup) :
    (∀ kv ∈ src, lookupD (compactMerge typ mm pid src dst) kv.1
        = some ((lookupD dst kv.1).getD 0 + kv.2))
  ∧ compactMerge "gauge" "livesum" pid src dst = dst := by
  refine ⟨?_, compactMerge_gauge_livesum pid src dst⟩
  induction src generalizing dst with
  | nil => intro kv hkv; simp at hkv
  | cons hd rest ih =>
    rw [List.map_cons, List.nodup_cons] at hnd
    intro kv hkv
    rw [compactMerge_cons]
    rcases List.mem_cons.mp hkv with heq | hmem
    · subst heq
      rw [compactMerge_nongauge_untouched typ mm pid htyp rest _ kv.1 hnd.1,
        compactStep_nongauge_self typ mm pid htyp dst kv]
    · have hne : kv.1 ≠ hd.1 := by
        intro hh
        exact hnd.1 (hh ▸ List.mem_map_of_mem Prod.fst hmem)
      rw [ih (compactStep typ mm pid dst hd) hnd.2 kv hmem,
        compactStep_nongauge_other typ mm pid htyp dst hd kv.1 hne]

/-- Counterexample to C2 as stated: a gauge/livesum pair `(k, 5)` compacted
into an empty archive is not written at all — the claim demands
`destination[k] = 0.0 + 5`. -/
theorem compact_livesum_dropped_cex :
    lookupD (compactMerge "gauge" "livesum" "1" [(⟨"g", "g", [], []⟩, 5)] ([] : Store))
      ⟨"g", "g", [], []⟩ = none
  ∧ ¬ (lookupD (compactMerge "gauge" "livesum" "1" [(⟨"g", "g", [], []⟩, 5)] ([] : Store))
      ⟨"g", "g", [], []⟩
        = some ((lookupD ([] : Store) ⟨"g", "g", [], []⟩).getD 0 + 5)) := by
  constructor
  · simp [compactMerge, compactStep, lookupD]
  · simp [compactMerge, compactStep, lookupD]

/-- Witness for C2 (amended): counter pair `(k, 3)` merged onto an archive
holding 4 yields 7; the same source under gauge/livesum leaves the archive
untouched. -/
theorem compact_sum_merge_non_gauge_witness :
    lookupD (compactMerge "counter" "" "1" [(⟨"m", "c", [], []⟩, 3)]
        [(⟨"m", "c", [], []⟩, 4)]) ⟨"m", "c", [], []⟩ = some 7
  ∧ compactMerge "gauge" "livesum" "1" [(⟨"m", "c", [], []⟩, 3)] [(⟨"m", "c", [], []⟩, 4)]
      = [(⟨"m", "c", [], []⟩, 4)] := by
  have h := compact_sum_merge_non_gauge "counter" "" "1"
    ([(⟨"m", "c", [], []⟩, 3)] : List (SKey × ℚ)) [(⟨"m", "c", [], []⟩, 4)]
    (by decide) (by decide)
  refine ⟨(h.1 (⟨"m", "c", [], []⟩, 3) (List.mem_singleton.mpr rfl)).trans ?_, h.2⟩
  simp [lookupD]
  try norm_num

/-- **C3 (amended)**: for every `(key, value)` pair in a gauge source
StoreFile whose mode is `all`, `compact()` re-keys the sample by appending
the dying process's pid as an extra label (label name `pid`, label value the
pid from the source filename) and writes it as a new row in the archive,
preserving the value as its own series.  Mode `liveall`, by contrast,
matches no merge branch: its pairs are dropped, not re-keyed (in the normal
flow `mark_process_dead` deletes `gauge_liveall` files instead of compacting
them). -/
theorem compact_gauge_all_rekeys (pid : String) (src : List (SKey × ℚ)) (dst : Store)
    (hnd : (src.map Prod.fst).Nodup)
    (hfresh : ∀ kv ∈ src, rekey kv.1 pid ∉ dst.map Prod.fst) :
    compactMerge "gauge" "all" pid src dst
      = dst ++ src.map (fun kv => (rekey kv.1 pid, kv.2)) := by
  induction src generalizing dst with
  | nil => simp [compactMerge]
  | cons hd rest ih =>
    rw [List.map_cons, List.nodup_cons] at hnd
    rw [compactMerge_cons]
    have hstep : compactStep "gauge" "all" pid dst hd = dst ++ [(rekey hd.1 pid, hd.2)] := by
      have hf := hfresh hd (List.mem_cons_self hd rest)
      have hsd := setD_of_not_mem dst (rekey hd.1 pid) hd.2 hf
      simp [compactStep, hsd]
    rw [hstep]
    have hfresh2 : ∀ kv ∈ rest,
        rekey kv.1 pid ∉ (dst ++ [(rekey hd.1 pid, hd.2)]).map Prod.fst := by
      intro kv hkv
      rw [List.map_append]
      simp only [List.mem_append, List.map_cons, List.map_nil, List.mem_singleton]
      rintro (hc | hc)
      · exact hfresh kv (List.mem_cons_of_mem hd hkv) hc
      · have hkk : kv.1 = hd.1 := rekey_injective kv.1 hd.1 pid hc
        exact hnd.1 (hkk ▸ List.mem_map_of_mem Prod.fst hkv)
    rw [ih (dst ++ [(rekey hd.1 pid, hd.2)]) hnd.2 hfresh2]
    simp

/-- Counterexample to C3 as stated: a gauge/liveall pair `(k, 3)` compacted
into an empty archive is dropped — no re-keyed row appears, although the
claim demands one for mode liveall. -/
theorem compact_liveall_dropped_cex :
    compactMerge "gauge" "liveall" "7" [(⟨"g", "g", [], []⟩, 3)] ([] : Store) = []
  ∧ ¬ (lookupD (compactMerge "gauge" "liveall" "7" [(⟨"g", "g", [], []⟩, 3)] ([] : Store))
      (rekey ⟨"g", "g", [], []⟩ "7") = some 3) := by
  constructor
  · simp [compactMerge, compactStep]
  · simp [compactMerge, compactStep, lookupD]

/-- Witness for C3 (amended): a gauge/all pair is written as a new row keyed
with the pid appended to the label lists. -/
theorem compact_gauge_all_rekeys_witness :
    compactMerge "gauge" "all" "7" [(⟨"g", "g", ["l"], ["v"]⟩, 3)] ([] : Store)
      = [(⟨"g", "g", ["l", "pid"], ["v", "7"]⟩, 3)] := by
  have h := compact_gauge_all_rekeys "7" ([(⟨"g", "g", ["l"], ["v"]⟩, 3)] : List (SKey × ℚ))
    [] (by decide) (by intro kv hkv; simp)
  exact h.trans (by simp [rekey])

/-- **C4 (code bug)**: `compact` on a gauge/max source pair `(k, -1)`
against an archive that does not hold `k`.  The claim (and the spec's
"symmetric maximum, same unset-handling") requires the incoming -1 to be
adopted verbatim; instead, the guard on line 149 calls
`dst.read_value(key)`, default-initializing the key to 0.0, and compares
`-1 > 0` — so nothing further is written, the archive is left holding 0.0,
and the unset-check of lines 150-152 can never see `None`. -/
theorem compact_gauge_max_defaults_zero :
    lookupD (compactMerge "gauge" "max" "1" [(⟨"m", "m", [], []⟩, -1)] ([] : Store))
      ⟨"m", "m", [], []⟩ = some 0
  ∧ ¬ (lookupD (compactMerge "gauge" "max" "1" [(⟨"m", "m", [], []⟩, -1)] ([] : Store))
      ⟨"m", "m", [], []⟩ = some (-1)) := by
  have he : lookupD (compactMerge "gauge" "max" "1" [(⟨"m", "m", [], []⟩, -1)] ([] : Store))
      ⟨"m", "m", [], []⟩ = some 0 := by
    simp [compactMerge, compactStep, readValueInit, readValueNoInit, lookupD, setD]
  refine ⟨he, ?_⟩
  rw [he]
  intro hc
  exact absurd (Option.some.inj hc) (by norm_num)

/-- **C5**: for every `(key, value)` pair in a gauge/min source StoreFile,
`compact()` leaves `destination[key]` equal to the minimum of the current
archive value and the incoming value; when the archive key is absent it is
treated as unset and the incoming value is adopted verbatim — never
defaulted to 0. -/
theorem compact_gauge_min_adopts (pid : String) (src : List (SKey × ℚ)) (dst : Store)
    (hnd : (src.map Prod.fst).Nodup) :
    ∀ kv ∈ src, lookupD (compactMerge "gauge" "min" pid src dst) kv.1
      = some ((lookupD dst kv.1).elim kv.2 (fun c => min c kv.2)) := by
  induction src generalizing dst with
  | nil => intro kv hkv; simp at hkv
  | cons hd rest ih =>
    rw [List.map_cons, List.nodup_cons] at hnd
    intro kv hkv
    rw [compactMerge_cons]
    rcases List.mem_cons.mp hkv with heq | hmem
    · subst heq
      rw [compactMerge_min_untouched pid rest _ kv.1 hnd.1, compactStep_min_self pid dst kv]
    · have hne : kv.1 ≠ hd.1 := by
        intro hh
        exact hnd.1 (hh ▸ List.mem_map_of_mem Prod.fst hmem)
      rw [ih (compactStep "gauge" "min" pid dst hd) hnd.2 kv hmem,
        compactStep_min_other pid dst hd kv.1 hne]

/-- Witness for C5: compacting a gauge/min source holding 7 into an empty
archive stores 7 itself, not 0. -/
theorem compact_gauge_min_adopts_witness :
    lookupD (compactMerge "gauge" "min" "9" [(⟨"g", "g", [], []⟩, 7)] ([] : Store))
      ⟨"g", "g", [], []⟩ = some 7 := by
  have h := compact_gauge_min_adopts "9" ([(⟨"g", "g", [], []⟩, 7)] : List (SKey × ℚ)) []
    (by decide) (⟨"g", "g", [], []⟩, 7) (List.mem_singleton.mpr rfl)
  exact h.trans (by simp [lookupD])

/-! ## Claim theorems: death handler -/

theorem unlinkAfterMerges_mergeKeys (src : List (SKey × ℚ)) (rest : List CEv) :
    unlinkAfterMerges false (src.map (fun kv => CEv.mergeKey kv.1) ++ rest)
      = unlinkAfterMerges false rest := by
  induction src with
  | nil => rfl
  | cons hd tl ih => simp [unlinkAfterMerges, ih]

theorem unlinkAfterMerges_compactTrace (src : List (SKey × ℚ)) :
    unlinkAfterMerges false (compactTrace src) = true := by
  have h1 : compactTrace src
      = CEv.lockExclusive :: (src.map (fun kv => CEv.mergeKey kv.1)
          ++ [CEv.unlinkSrc, CEv.closeDst, CEv.closeSrc]) := by
    simp [compactTrace]
  rw [h1]
  show unlinkAfterMerges false (src.map (fun kv => CEv.mergeKey kv.1)
      ++ [CEv.unlinkSrc, CEv.closeDst, CEv.closeSrc]) = true
  rw [unlinkAfterMerges_mergeKeys]
  rfl

/-- **C9**: for every file matched by `mark_process_dead(pid)`: a probe
failing with EWOULDBLOCK skips the file untouched without raising; any other
probe errno propagates to the caller; on probe success a file whose name
marks it as a live gauge snapshot (`gauge_live*`) is deleted outright and
every other file is passed to `compact`, which unlinks the source once — and
only once — the whole merge has run. -/
theorem mark_process_dead_probe_dispatch (f : String) (e : ℕ) (src : List (SKey × ℚ)) :
    markDecision f (some EWOULDBLOCK) = FileAction.skip
  ∧ (e ≠ EWOULDBLOCK → markDecision f (some e) = FileAction.raiseError e)
  ∧ (strStartsWith f "gauge_live" = true → markDecision f none = FileAction.removeFile)
  ∧ (strStartsWith f "gauge_live" = false → markDecision f none = FileAction.compactFile)
  ∧ unlinkAfterMerges false (compactTrace src) = true := by
  refine ⟨?_, ?_, ?_, ?_, unlinkAfterMerges_compactTrace src⟩
  · simp [markDecision]
  · intro he
    simp [markDecision, he]
  · intro hs
    simp [markDecision, hs]
  · intro hs
    simp [markDecision, hs]

/-- Witness for C9 at concrete filenames, errnos and a one-pair source. -/
theorem mark_process_dead_probe_dispatch_witness :
    (13 : ℕ) ≠ EWOULDBLOCK
  ∧ markDecision "counter_42_0.db" (some 13) = FileAction.raiseError 13
  ∧ strStartsWith "gauge_livesum_42_0.db" "gauge_live" = true
  ∧ markDecision "gauge_livesum_42_0.db" none = FileAction.removeFile
  ∧ strStartsWith "counter_42_0.db" "gauge_live" = false
  ∧ markDecision "counter_42_0.db" none = FileAction.compactFile
  ∧ markDecision "counter_42_0.db" (some EWOULDBLOCK) = FileAction.skip := by
  have h1 := mark_process_dead_probe_dispatch "counter_42_0.db" 13
    ([(⟨"m", "c", [], []⟩, 3)] : List (SKey × ℚ))
  have h2 := mark_process_dead_probe_dispatch "gauge_livesum_42_0.db" 13
    ([] : List (SKey × ℚ))
  exact ⟨by decide, h1.2.1 (by decide), by decide, h2.2.2.1 (by decide), by decide,
    h1.2.2.2.1 (by decide), h1.1⟩

/-- **C10**: in `mark_process_dead`, after a successful non-blocking
exclusive probe the probing file handle is closed — releasing the probe's
advisory lock — before the file is removed or compacted; on every path
(success, contention skip, propagated error) no removal or compaction event
occurs while the probe handle is open or its lock is held. -/
theorem probe_released_before_mutation (f : String) (res : Option ℕ) :
    mutationsUnlocked false false (processFileTrace f res).1 = true := by
  cases res with
  | some e =>
    by_cases he : e ≠ EWOULDBLOCK
    · simp [processFileTrace, he, mutationsUnlocked]
    · simp [processFileTrace, he, mutationsUnlocked]
  | none =>
    by_cases hs : strStartsWith f "gauge_live" = true
    · simp [processFileTrace, hs, mutationsUnlocked]
    · simp [processFileTrace, hs, mutationsUnlocked]

/-! ## Claim theorems: histogram bucket reconstruction -/

theorem lookup2_bucketsAdd_self (B : List (Labels × List (ℚ × ℚ))) (g : Labels) (t v : ℚ) :
    lookup2 (bucketsAdd B g t v) g t = some ((lookup2 B g t).getD 0 + v) := by
  cases hB : lookupD B g with
  | none => simp [bucketsAdd, lookup2, hB, lookupD_setD_self, lookupD]
  | some inner => simp [bucketsAdd, lookup2, hB, lookupD_setD_self]

theorem lookup2_bucketsAdd_ne (B : List (Labels × List (ℚ × ℚ))) (g2 : Labels) (t2 v : ℚ)
    (g : Labels) (t : ℚ) (h : (g, t) ≠ (g2, t2)) :
    lookup2 (bucketsAdd B g2 t2 v) g t = lookup2 B g t := by
  by_cases hg : g = g2
  · subst hg
    have ht : t ≠ t2 := fun hh => h (by rw [hh])
    have ht2 : ¬ t2 = t := fun hh => ht hh.symm
    cases hB : lookupD B g with
    | none =>
      simp [bucketsAdd, lookup2, hB, lookupD_setD_self,
        lookupD_setD_ne _ t2 t _ ht, lookupD, ht2]
    | some inner =>
      simp [bucketsAdd, lookup2, hB, lookupD_setD_self, lookupD_setD_ne _ t2 t _ ht]
  · simp [bucketsAdd, lookup2, lookupD_setD_ne _ g2 g _ hg]

theorem histStep_bucket_hit (st : HistState) (r : Row) (g : Labels) (t : ℚ)
    (h : bucketKeyOf r = some (g, t)) :
    lookup2 (histStep st r).buckets g t = updSum (lookup2 st.buckets g t) r.value := by
  simp only [histStep, h]
  exact lookup2_bucketsAdd_self st.buckets g t r.value

theorem histStep_bucket_miss (st : HistState) (r : Row) (g : Labels) (t : ℚ)
    (h : bucketKeyOf r ≠ some (g, t)) :
    lookup2 (histStep st r).buckets g t = lookup2 st.buckets g t := by
  cases hk : bucketKeyOf r with
  | none => simp [histStep, hk]
  | some gt =>
    obtain ⟨g2, t2⟩ := gt
    have hne : (g, t) ≠ (g2, t2) := fun hh => h (hk.trans (congrArg some hh.symm))
    simp only [histStep, hk]
    exact lookup2_bucketsAdd_ne st.buckets g2 t2 r.value g t hne

/-- Grouping and per-threshold summing of the histogram reading fold
(claim C1, part one): the bucket slot for remaining labels `g` and
threshold `t` holds exactly the sum of the values of the rows carrying
that threshold and those remaining labels. -/
theorem histBuckets_lookup (rows : List Row) :
    ∀ (g : Labels) (t : ℚ), lookup2 (histBuckets rows) g t
      = if (rows.filter (fun r => decide (bucketKeyOf r = some (g, t)))).isEmpty then none
        else some (((rows.filter (fun r => decide (bucketKeyOf r = some (g, t)))).map
            Row.value).sum) := by
  intro g t
  have h := view_foldl_update histStep (fun st gt => lookup2 st.buckets gt.1 gt.2)
    bucketKeyOf (fun o r => updSum o r.value)
    (fun s a k hk => histStep_bucket_hit s a k.1 k.2 hk)
    (fun s a k hk => histStep_bucket_miss s a k.1 k.2 hk)
    rows ⟨[], []⟩ (g, t)
  calc lookup2 (histBuckets rows) g t
      = (rows.filter (fun r => decide (bucketKeyOf r = some (g, t)))).foldl
          (fun o r => updSum o r.value) none := h
    _ = _ := by rw [foldl_updSum_eq_sum]

/-- Every group of the `buckets` dict built by the reading fold has
pairwise-distinct thresholds (they are keys of the inner Python dict). -/
theorem histBuckets_invariant (rows : List Row) :
    ∀ gv ∈ histBuckets rows, (gv.2.map Prod.fst).Nodup := by
  have key : ∀ (st : HistState), (∀ gv ∈ st.buckets, (gv.2.map Prod.fst).Nodup) →
      ∀ gv ∈ (rows.foldl histStep st).buckets, (gv.2.map Prod.fst).Nodup := by
    induction rows with
    | nil => intro st h; exact h
    | cons r rest ih =>
      intro st h
      rw [List.foldl_cons]
      apply ih
      cases hk : bucketKeyOf r with
      | none => simpa [histStep, hk] using h
      | some gt =>
        obtain ⟨g2, t2⟩ := gt
        have hinner : ((((lookupD st.buckets g2).getD []).map Prod.fst)).Nodup := by
          cases hB : lookupD st.buckets g2 with
          | none => simp
          | some inner0 =>
            have hmem := lookupD_mem st.buckets g2 inner0 hB
            simpa using h (g2, inner0) hmem
        intro gv hgv
        simp only [histStep, hk, bucketsAdd] at hgv
        rcases mem_setD _ _ _ gv hgv with hh | hh
        · rw [hh]
          exact nodup_keys_setD _ t2 _ hinner
        · exact h gv hh
  intro gv hgv
  refine key ⟨[], []⟩ ?_ gv hgv
  intro gv2 h2
  simp at h2

theorem sortByKey_perm (l : List (ℚ × ℚ)) : (sortByKey l).Perm l :=
  List.perm_insertionSort keyLE l

theorem sortByKey_sorted (l : List (ℚ × ℚ)) : (sortByKey l).Pairwise keyLE :=
  List.sorted_insertionSort keyLE l

theorem sortByKey_pairwise_lt (l : List (ℚ × ℚ)) (hnd : (l.map Prod.fst).Nodup) :
    (sortByKey l).Pairwise (fun a b => a.1 < b.1) := by
  have hperm : ((sortByKey l).map Prod.fst).Perm (l.map Prod.fst) :=
    (sortByKey_perm l).map Prod.fst
  have hnd2 : ((sortByKey l).map Prod.fst).Nodup := hperm.nodup_iff.mpr hnd
  have hne : (sortByKey l).Pairwise (fun a b => a.1 ≠ b.1) := List.pairwise_map.mp hnd2
  exact ((sortByKey_sorted l).and hne).imp (fun h => lt_of_le_of_ne h.1 h.2)

theorem cumulAtL_cons_le (t v x : ℚ) (rest : List (ℚ × ℚ)) (h : t ≤ x) :
    cumulAtL ((t, v) :: rest) x = v + cumulAtL rest x := by
  simp [cumulAtL, List.filter_cons, h]

/-- The accumulation loop over a strictly-ascending threshold list: every
emitted bucket entry carries the running total `acc` plus the cumulative sum
of the group's values at thresholds at or below its own, and the final
accumulator is `acc` plus the group's total. -/
theorem accumEntries_spec (mName : String) (g : Labels) (s : List (ℚ × ℚ)) (acc : ℚ)
    (hs : s.Pairwise (fun a b => a.1 < b.1)) :
    accumEntries mName g acc s
      = (s.map (fun tv => ((mName ++ "_bucket", g ++ [("le", goString tv.1)]),
            acc + cumulAtL s tv.1)),
         acc + (s.map Prod.snd).sum) := by
  induction s generalizing acc with
  | nil => simp [accumEntries, cumulAtL]
  | cons hd rest ih =>
    obtain ⟨t, v⟩ := hd
    rw [List.pairwise_cons] at hs
    have hfrest : rest.filter (fun tv => decide (tv.1 ≤ t)) = [] :=
      List.filter_eq_nil_iff.mpr (fun a ha => by
        simp only [decide_eq_true_eq, not_le]
        exact hs.1 a ha)
    have hcum_head : cumulAtL ((t, v) :: rest) t = v := by
      rw [cumulAtL_cons_le t v t rest le_rfl, cumulAtL, hfrest]
      simp
    have hmap : rest.map (fun tv => ((mName ++ "_bucket", g ++ [("le", goString tv.1)]),
          acc + v + cumulAtL rest tv.1))
        = rest.map (fun tv => ((mName ++ "_bucket", g ++ [("le", goString tv.1)]),
          acc + cumulAtL ((t, v) :: rest) tv.1)) := by
      apply List.map_congr_left
      intro a ha
      rw [cumulAtL_cons_le t v a.1 rest (le_of_lt (hs.1 a ha)), ← add_assoc]
    simp only [accumEntries]
    rw [ih (acc + v) hs.2, hmap]
    simp only [List.map_cons, List.sum_cons, Prod.mk.injEq]
    constructor
    · rw [hcum_head]
    · rw [add_assoc]

/-- The per-group emission of lines 90-95 (claim C1, part two): given
pairwise-distinct thresholds, the emitted entries are exactly one bucket
entry per threshold in sorted order, each holding the cumulative sum of the
group's values at thresholds at or below it, followed by the count entry
holding the group's total. -/
theorem accumGroup_spec (mName : String) (g : Labels) (values : List (ℚ × ℚ))
    (hnd : (values.map Prod.fst).Nodup) :
    (sortByKey values).Pairwise (fun a b => a.1 < b.1)
  ∧ accumGroup mName g values
      = ((sortByKey values).map (fun tv =>
          ((mName ++ "_bucket", g ++ [("le", goString tv.1)]), cumulAtL values tv.1)))
        ++ [((mName ++ "_count", g), (values.map Prod.snd).sum)] := by
  have hpl := sortByKey_pairwise_lt values hnd
  refine ⟨hpl, ?_⟩
  have hperm := sortByKey_perm values
  have hsum : ((sortByKey values).map Prod.snd).sum = (values.map Prod.snd).sum :=
    (hperm.map Prod.snd).sum_eq
  have hcum : ∀ x : ℚ, cumulAtL (sortByKey values) x = cumulAtL values x := by
    intro x
    exact ((hperm.filter _).map Prod.snd).sum_eq
  simp only [accumGroup]
  rw [accumEntries_spec mName g (sortByKey values) 0 hpl]
  congr 1
  · apply List.map_congr_left
    intro a ha
    rw [zero_add, hcum a.1]
  · rw [zero_add, hsum]

/-- **C1**: for every histogram metric, `collect()` groups the samples
carrying a bucket-threshold (`le`) label by their remaining label set;
within each group it sums increments for the same threshold across files
(part one); then it emits one bucket sample per threshold in ascending
numeric order whose value is the cumulative sum of the group's values at
all thresholds at or below it, followed by a count sample whose value
equals the group total — which is the cumulative value at the largest
threshold (part two). -/
theorem histogram_bucket_reconstruction (rows : List Row) (mName : String) :
    (∀ (g : Labels) (t : ℚ), lookup2 (histBuckets rows) g t
        = if (rows.filter (fun r => decide (bucketKeyOf r = some (g, t)))).isEmpty then none
          else some (((rows.filter (fun r => decide (bucketKeyOf r = some (g, t)))).map
              Row.value).sum))
  ∧ (∀ (g : Labels) (values : List (ℚ × ℚ)), (g, values) ∈ histBuckets rows →
        (sortByKey values).Pairwise (fun a b => a.1 < b.1)
      ∧ accumGroup mName g values
          = ((sortByKey values).map (fun tv =>
              ((mName ++ "_bucket", g ++ [("le", goString tv.1)]), cumulAtL values tv.1)))
            ++ [((mName ++ "_count", g), (values.map Prod.snd).sum)]
      ∧ (∀ tmax ∈ values.map Prod.fst, (∀ u ∈ values.map Prod.fst, u ≤ tmax) →
            (values.map Prod.snd).sum = cumulAtL values tmax)) := by
  refine ⟨histBuckets_lookup rows, ?_⟩
  intro g values hmem
  have hnd : (values.map Prod.fst).Nodup := histBuckets_invariant rows (g, values) hmem
  have hspec := accumGroup_spec mName g values hnd
  refine ⟨hspec.1, hspec.2, ?_⟩
  intro tmax htm hub
  have hall : values.filter (fun tv => decide (tv.1 ≤ tmax)) = values :=
    List.filter_eq_self.mpr (fun a ha =>
      decide_eq_true (hub a.1 (List.mem_map_of_mem Prod.fst ha)))
  rw [cumulAtL, hall]

/-- Witness for C1 on the spec's example: bucket increments
`{le=1: 2, le=5: 1}` arriving as three rows across files.  The grouped
per-threshold sum at `le=1` is 2, and the emitted group is
`bucket(le=1)=2`, `bucket(le=5)=3`, `count=3`, thresholds ascending. -/
theorem histogram_bucket_reconstruction_witness :
    lookup2 (histBuckets
        ([⟨"m_bucket", [("le", "1")], 1⟩, ⟨"m_bucket", [("le", "5")], 1⟩,
          ⟨"m_bucket", [("le", "1")], 1⟩] : List Row)) [] 1 = some 2
  ∧ accumGroup "m" [] [(1, 2), (5, 1)]
      = [(("m_bucket", [("le", "1")]), 2), (("m_bucket", [("le", "5")]), 3),
          (("m_count", ([] : Labels)), 3)] := by
  have h := histogram_bucket_reconstruction
    ([⟨"m_bucket", [("le", "1")], 1⟩, ⟨"m_bucket", [("le", "5")], 1⟩,
      ⟨"m_bucket", [("le", "1")], 1⟩] : List Row) "m"
  have heq : histBuckets
      ([⟨"m_bucket", [("le", "1")], 1⟩, ⟨"m_bucket", [("le", "5")], 1⟩,
        ⟨"m_bucket", [("le", "1")], 1⟩] : List Row) = [([], [(1, 2), (5, 1)])] := by
    simp [histBuckets, histStep, bucketKeyOf, leValues, withoutLe, parseGoFloat,
      parseDigits, List.takeWhile, List.dropWhile, bucketsAdd, lookupD, setD]
    try norm_num
  constructor
  · refine (h.1 [] 1).trans ?_
    simp [bucketKeyOf, leValues, withoutLe, parseGoFloat, parseDigits, List.takeWhile,
      List.dropWhile, List.filter_cons]
    try norm_num
  · have hmem : (([] : Labels), [((1 : ℚ), (2 : ℚ)), ((5 : ℚ), (1 : ℚ))]) ∈ histBuckets
        ([⟨"m_bucket", [("le", "1")], 1⟩, ⟨"m_bucket", [("le", "5")], 1⟩,
          ⟨"m_bucket", [("le", "1")], 1⟩] : List Row) := by
      rw [heq]
      exact List.mem_singleton.mpr rfl
    refine ((h.2 [] [(1, 2), (5, 1)] hmem).2.1).trans ?_
    simp [sortByKey, List.insertionSort, List.orderedInsert, keyLE, cumulAtL,
      List.filter_cons, goString]
    exact ⟨by decide, by decide, by norm_num⟩

end Prom
